import Mathlib

/-!
Verification of the SEO title / meta-description length normalizer of
`seo_fix_site.py` (repository GothamSiteStudio/midwest-flip-website).

Strings are modelled as `List Char`.  The Python whitespace class `\s` is
modelled by its ASCII part (space, tab, newline, carriage return, vertical
tab, form feed); Python's `re` additionally matches some Unicode spaces,
which none of the constants or claims here depend on.  The integer length
parameters `min_len` / `max_len` are modelled as `Nat`; the only subtraction
performed by the source, `max(0, max_len - 60)`, coincides with truncated
`Nat` subtraction.
-/

abbrev Str := List Char

/-- Python `\s` (ASCII part), as used by `re.sub(r"\s+", " ", ...)`. -/
def isPySpace (c : Char) : Bool :=
  c = ' ' || c = '\t' || c = '\n' || c = '\r' || c = '\x0b' || c = '\x0c'

/-- `str.strip()` from the left: drop leading whitespace. -/
def stripL (s : Str) : Str := s.dropWhile isPySpace

/-- `str.strip()` from the right: drop trailing whitespace. -/
def stripR : Str → Str
  | [] => []
  | c :: cs => if isPySpace c ∧ stripR cs = [] then [] else c :: stripR cs

/-- Python `str.strip()`. -/
def strip (s : Str) : Str := stripR (stripL s)

/-- `re.sub(r"\s+", " ", s)`: each maximal whitespace run becomes one `' '`. -/
def collapseWs : Str → Str
  | [] => []
  | [c] => [if isPySpace c then ' ' else c]
  | c :: d :: cs =>
    if isPySpace c && isPySpace d then collapseWs (d :: cs)
    else (if isPySpace c then ' ' else c) :: collapseWs (d :: cs)

/-- `_normalize_space(text)`: `re.sub(r"\s+", " ", text.strip())`. -/
def normalize_space (s : Str) : Str := collapseWs (strip s)

/-- `pat` occurs in `s` starting at index `i` (as in Python `str.find`). -/
def occursAt (pat s : Str) (i : Nat) : Bool :=
  decide ((s.drop i).take pat.length = pat)

/-- Scan indices `n, n-1, ..., 0` for the rightmost occurrence of `pat`. -/
def rfindFrom (pat s : Str) : Nat → Option Nat
  | 0 => if occursAt pat s 0 then some 0 else none
  | n + 1 => if occursAt pat s (n + 1) then some (n + 1) else rfindFrom pat s n

/-- Python `s.rfind(pat)`: index of the rightmost occurrence, if any. -/
def rfindSub (pat s : Str) : Option Nat := rfindFrom pat s s.length

/-- Python `pat in s` (substring test), via the rightmost-occurrence search. -/
def containsSub (pat s : Str) : Bool := (rfindSub pat s).isSome

/-- The sentence-end patterns tried, in order, by `_trim_to_word_boundary`. -/
def puncts : List Str := [['.', ' '], ['!', ' '], ['?', ' '], [';', ' ']]

/-- The `for punct in [...]` loop: first pattern that `rfind` locates wins. -/
def findPunctCut (window : Str) : List Str → Option Nat
  | [] => none
  | p :: ps =>
    match rfindSub p window with
    | some idx => some idx
    | none => findPunctCut window ps

/-- `_trim_to_word_boundary(text, max_len)` of `seo_fix_site.py`. -/
def trim_to_word_boundary (text0 : Str) (maxLen : Nat) : Str :=
  let text := normalize_space text0
  if text.length ≤ maxLen then text
  else
    -- window_start = max(0, max_len - 60); window = text[window_start:max_len]
    let windowStart := maxLen - 60
    let window := (text.drop windowStart).take (maxLen - windowStart)
    match findPunctCut window puncts with
    | some idx => strip (text.take (windowStart + idx + 1))
    | none =>
      -- cut = text.rfind(" ", 0, max_len + 1); if cut <= 0: hard truncate
      match rfindSub [' '] (text.take (maxLen + 1)) with
      | none => strip (text.take maxLen)
      | some 0 => strip (text.take maxLen)
      | some cut => strip (text.take cut)

/-- First description suffix: `"Serving Detroit & Metro Detroit."`. -/
def sfx1 : Str := "Serving Detroit & Metro Detroit.".toList

/-- Second description suffix: `"Call (313) 389-6324."`. -/
def sfx2 : Str := "Call (313) 389-6324.".toList

/-- The gentle padding string `"Licensed & insured."`. -/
def extraPad : Str := "Licensed & insured.".toList

/-- The fixed `suffixes` list of `_extend_description`. -/
def descSuffixes : List Str := [sfx1, sfx2]

/-- The `for suffix in suffixes` loop of `_extend_description`; the `Bool`
component records whether the loop returned early (length reached `lo`). -/
def extendLoop (lo hi : Nat) : Str → List Str → Str × Bool
  | text, [] => (text, false)
  | text, sfx :: rest =>
    let candidate :=
      normalize_space (if text = [] then sfx else strip (text ++ [' '] ++ sfx))
    if candidate.length > hi then extendLoop lo hi text rest
    else if lo ≤ candidate.length then (candidate, true)
    else extendLoop lo hi candidate rest

/-- `_extend_description(text, min_len, max_len)` of `seo_fix_site.py`. -/
def extend_description (text0 : Str) (lo hi : Nat) : Str :=
  let text := normalize_space text0
  if lo ≤ text.length then trim_to_word_boundary text hi
  else
    let r := extendLoop lo hi text descSuffixes
    if r.2 then r.1
    else
      -- "If still short, pad gently without exceeding max."
      let candidate := normalize_space (strip (r.1 ++ [' '] ++ extraPad))
      if candidate.length ≤ hi then candidate else r.1

/-- The description pipeline of `fix_file` (lines 252-258): trim when above
`desc_max`, extend when below `desc_min`, then a final trim. -/
def fix_desc (d : Str) (lo hi : Nat) : Str :=
  let d1 := if hi < d.length then trim_to_word_boundary d hi else d
  let d2 := if d1.length < lo then extend_description d1 lo hi else d1
  trim_to_word_boundary d2 hi

/-- The brand string `"Midwest Flip LLC"`. -/
def brandStr : Str := "Midwest Flip LLC".toList

/-- The lowercase brand test pattern `"midwest flip"`. -/
def brandPat : Str := "midwest flip".toList

/-- The worst-case fallback title of `_smart_title`. -/
def fallbackStr : Str := "Midwest Flip LLC | Detroit Home Remodeling".toList

/-- The separator `" | "` used to join title segments. -/
def sepBar : Str := [' ', '|', ' ']

/-- Python `str.lower()` (ASCII-faithful; the tested patterns are ASCII). -/
def toLowerStr (s : Str) : Str := s.map Char.toLower

/-- The segment separators of `re.split(r"[|\-–—:]", title)`. -/
def isSepChar (c : Char) : Bool :=
  c = '|' || c = '-' || c = '–' || c = '—' || c = ':'

/-- `re.split` on single separator characters, keeping empty segments. -/
def splitOnSep : Str → List Str
  | [] => [[]]
  | c :: cs =>
    if isSepChar c then [] :: splitOnSep cs
    else
      match splitOnSep cs with
      | [] => [[c]]
      | g :: gs => (c :: g) :: gs

/-- `parts = [p.strip() for p in re.split(r"[|\-–—:]", title) if p.strip()]`. -/
def parts (t : Str) : List Str :=
  ((splitOnSep t).map strip).filter (fun p => p ≠ [])

/-- The loop locating the first segment containing both `"midwest"` and
`"flip"` (case-insensitively). -/
def findBrand : List Str → Option Str
  | [] => none
  | p :: ps =>
    if containsSub "midwest".toList (toLowerStr p) &&
       containsSub "flip".toList (toLowerStr p) then some p
    else findBrand ps

/-- The keyword list used to score descriptor segments. -/
def keywords : List Str :=
  ["detroit".toList, "metro detroit".toList, "remodel".toList,
   "contractor".toList, "builder".toList, "services".toList]

/-- Number of keywords occurring in the lowercased segment. -/
def kwCount (p : Str) : Nat :=
  (keywords.filter (fun k => containsSub k (toLowerStr p))).length

/-- Strict precedence for the sort key `(-keyword count, len(p))`. -/
def keyLt (a b : Str) : Bool :=
  decide (kwCount b < kwCount a) ||
  (decide (kwCount a = kwCount b) && decide (a.length < b.length))

/-- Stable insertion into an already sorted list (ties keep input order). -/
def insKey (x : Str) : List Str → List Str
  | [] => [x]
  | y :: ys => if keyLt y x then y :: insKey x ys else x :: y :: ys

/-- Stable sort by `keyLt`, modelling Python's stable `sorted`. -/
def sortKey : List Str → List Str
  | [] => []
  | x :: xs => insKey x (sortKey xs)

/-- Python `" | ".join(parts)`. -/
def joinBar : List Str → Str
  | [] => []
  | [p] => p
  | p :: ps => p ++ sepBar ++ joinBar ps

/-- The greedy descriptor-append loop of the title-shortening branch. -/
def greedy (lo hi : Nat) : List Str → List Str → List Str
  | acc, [] => acc
  | acc, p :: rest =>
    let acc2 := if (joinBar (acc ++ [p])).length ≤ hi then acc ++ [p] else acc
    if lo ≤ (joinBar acc2).length then acc2 else greedy lo hi acc2 rest

/-- Lines 139-185 of `_smart_title`: whitespace-normalize, expand when too
short, shorten (segment de-duplication) when too long. -/
def smartCore (title0 : Str) (lo hi : Nat) : Str :=
  let title := normalize_space title0
  let title :=
    if title.length < lo then
      let title :=
        if containsSub brandPat (toLowerStr title) then title
        else if title = [] then brandStr
        else normalize_space (title ++ sepBar ++ brandStr)
      if title.length < lo then
        let add :=
          if containsSub "detroit".toList (toLowerStr title) then
            "Michigan".toList
          else "Detroit".toList
        let candidate := normalize_space (title ++ sepBar ++ add)
        if candidate.length ≤ hi then candidate else title
      else title
    else title
  if hi < title.length then
    let ps := parts title
    let brand := (findBrand ps).getD brandStr
    let descriptors := ps.filter (fun p => p ≠ brand)
    let candidateParts := greedy lo hi [brand] (sortKey descriptors)
    let t := joinBar candidateParts
    if hi < t.length then trim_to_word_boundary t hi else t
  else title

/-- `_smart_title(title, min_len, max_len)` of `seo_fix_site.py`: the core,
then the final clamp (line 188) and the worst-case fallback (lines 189-193). -/
def smart_title (title0 : Str) (lo hi : Nat) : Str :=
  let title := trim_to_word_boundary (smartCore title0 lo hi) hi
  if title.length < lo then
    if lo ≤ fallbackStr.length ∧ fallbackStr.length ≤ hi then fallbackStr
    else title
  else title

/-! ### Characterization of whitespace-normalized strings -/

/-- The head, if any, is not whitespace. -/
def headNotSp : Str → Bool
  | [] => true
  | c :: _ => !isPySpace c

/-- The last character, if any, is not whitespace. -/
def lastNotSp : Str → Bool
  | [] => true
  | [c] => !isPySpace c
  | _ :: c :: cs => lastNotSp (c :: cs)

/-- A whitespace character is acceptable only as the literal `' '`. -/
def wsOk (c : Char) : Bool := !isPySpace c || c = ' '

/-- Whitespace runs are collapsed: every whitespace character is `' '` and is
never followed by another whitespace character. -/
def wsCollapsed : Str → Bool
  | [] => true
  | [c] => wsOk c
  | c :: d :: cs => wsOk c && !(isPySpace c && isPySpace d) && wsCollapsed (d :: cs)

theorem length_stripR_le (s : Str) : (stripR s).length ≤ s.length := by
  induction s with
  | nil => simp [stripR]
  | cons c cs ih =>
    simp only [stripR]
    split
    · simp
    · simpa using ih

theorem length_strip_le (s : Str) : (strip s).length ≤ s.length := by
  have h1 : (stripL s).length ≤ s.length := by
    unfold stripL
    induction s with
    | nil => simp
    | cons c cs ih =>
      by_cases h : isPySpace c
      · simp only [List.dropWhile_cons, h, if_true]
        exact Nat.le_trans ih (Nat.le_succ _)
      · simp [List.dropWhile_cons, h]
  exact Nat.le_trans (length_stripR_le _) h1

theorem headNotSp_stripL (s : Str) : headNotSp (stripL s) = true := by
  unfold stripL
  induction s with
  | nil => simp [headNotSp]
  | cons c cs ih =>
    by_cases h : isPySpace c
    · simpa [List.dropWhile_cons, h] using ih
    · simp [List.dropWhile_cons, h, headNotSp]

theorem headNotSp_stripR (s : Str) (h : headNotSp s = true) :
    headNotSp (stripR s) = true := by
  cases s with
  | nil => simp [stripR, headNotSp]
  | cons c cs =>
    simp only [stripR]
    split
    · simp [headNotSp]
    · simpa [headNotSp] using h

theorem lastNotSp_cons (c : Char) (l : Str) (h : l ≠ []) :
    lastNotSp (c :: l) = lastNotSp l := by
  cases l with
  | nil => exact absurd rfl h
  | cons x xs => rfl

theorem lastNotSp_stripR (s : Str) : lastNotSp (stripR s) = true := by
  induction s with
  | nil => simp [stripR, lastNotSp]
  | cons c cs ih =>
    rcases h : stripR cs with _ | ⟨x, xs⟩
    · by_cases hc : isPySpace c
      · simp [stripR, h, hc, lastNotSp]
      · simp [stripR, h, hc, lastNotSp]
    · rw [h] at ih
      have hrw : stripR (c :: cs) = c :: x :: xs := by
        simp [stripR, h]
      rw [hrw, lastNotSp_cons c (x :: xs) (by simp)]
      exact ih

theorem headNotSp_strip (s : Str) : headNotSp (strip s) = true :=
  headNotSp_stripR _ (headNotSp_stripL s)

theorem lastNotSp_strip (s : Str) : lastNotSp (strip s) = true :=
  lastNotSp_stripR _

theorem collapseWs_ne_nil (s : Str) (h : s ≠ []) : collapseWs s ≠ [] := by
  induction s using collapseWs.induct with
  | case1 => exact absurd rfl h
  | case2 c => simp [collapseWs]
  | case3 c d cs hsp ih => simpa [collapseWs, hsp] using ih (by simp)
  | case4 c d cs hsp ih => simp [collapseWs, hsp]

theorem collapseWs_cons_not_sp (d : Char) (cs : Str) (h : isPySpace d = false) :
    ∃ t, collapseWs (d :: cs) = d :: t := by
  cases cs with
  | nil => exact ⟨[], by simp [collapseWs, h]⟩
  | cons e es => exact ⟨collapseWs (e :: es), by simp [collapseWs, h]⟩

theorem headNotSp_collapseWs (s : Str) (h : headNotSp s = true) :
    headNotSp (collapseWs s) = true := by
  cases s with
  | nil => simp [collapseWs, headNotSp]
  | cons c cs =>
    have hc : isPySpace c = false := by simpa [headNotSp] using h
    obtain ⟨t, ht⟩ := collapseWs_cons_not_sp c cs hc
    simp [ht, headNotSp, hc]

theorem lastNotSp_collapseWs (s : Str) (h : lastNotSp s = true) :
    lastNotSp (collapseWs s) = true := by
  induction s using collapseWs.induct with
  | case1 => simp [collapseWs, lastNotSp]
  | case2 c =>
    have hc : isPySpace c = false := by simpa [lastNotSp] using h
    simp [collapseWs, lastNotSp, hc]
  | case3 c d cs hsp ih =>
    rw [lastNotSp_cons c (d :: cs) (by simp)] at h
    simpa [collapseWs, hsp] using ih h
  | case4 c d cs hsp ih =>
    rw [lastNotSp_cons c (d :: cs) (by simp)] at h
    have hne : collapseWs (d :: cs) ≠ [] := collapseWs_ne_nil _ (by simp)
    have hrw : collapseWs (c :: d :: cs) =
        (if isPySpace c then ' ' else c) :: collapseWs (d :: cs) := by
      simp [collapseWs, hsp]
    rw [hrw, lastNotSp_cons _ _ hne]
    exact ih h

theorem wsOk_of_wsCollapsed_cons (c : Char) (t : Str)
    (h : wsCollapsed (c :: t) = true) : wsOk c = true := by
  cases t with
  | nil => simpa [wsCollapsed] using h
  | cons d cs =>
    simp only [wsCollapsed, Bool.and_eq_true] at h
    exact h.1.1

theorem wsCollapsed_tail (c : Char) (t : Str)
    (h : wsCollapsed (c :: t) = true) : wsCollapsed t = true := by
  cases t with
  | nil => rfl
  | cons d cs =>
    simp only [wsCollapsed, Bool.and_eq_true] at h
    exact h.2

theorem wsCollapsed_pair (c d : Char) (cs : Str)
    (h : wsCollapsed (c :: d :: cs) = true) :
    (isPySpace c && isPySpace d) = false := by
  simp only [wsCollapsed, Bool.and_eq_true, Bool.not_eq_true'] at h
  exact h.1.2

theorem wsCollapsed_cons2 (c d : Char) (cs : Str)
    (h1 : wsOk c = true) (h2 : (isPySpace c && isPySpace d) = false)
    (h3 : wsCollapsed (d :: cs) = true) :
    wsCollapsed (c :: d :: cs) = true := by
  simp [wsCollapsed, h1, h2, h3]

theorem wsCollapsed_collapseWs (s : Str) :
    wsCollapsed (collapseWs s) = true := by
  induction s using collapseWs.induct with
  | case1 => rfl
  | case2 c =>
    by_cases hc : isPySpace c
    · have hrw : collapseWs [c] = [' '] := by simp [collapseWs, hc]
      rw [hrw]; decide
    · have hrw : collapseWs [c] = [c] := by simp [collapseWs, hc]
      rw [hrw]
      simp [wsCollapsed, wsOk, hc]
  | case3 c d cs hsp ih => simpa [collapseWs, hsp] using ih
  | case4 c d cs hsp ih =>
    have hrw : collapseWs (c :: d :: cs) =
        (if isPySpace c then ' ' else c) :: collapseWs (d :: cs) := by
      simp [collapseWs, hsp]
    rw [hrw]
    by_cases hc : isPySpace c
    · have hd : isPySpace d = false := by
        cases hdd : isPySpace d
        · rfl
        · exact absurd (by simp [hc, hdd]) hsp
      obtain ⟨t, ht⟩ := collapseWs_cons_not_sp d cs hd
      rw [ht] at ih ⊢
      simp only [hc, if_true]
      exact wsCollapsed_cons2 ' ' d t (by decide) (by simp [hd]) ih
    · have hne : collapseWs (d :: cs) ≠ [] := collapseWs_ne_nil _ (by simp)
      rcases hu : collapseWs (d :: cs) with _ | ⟨x, xs⟩
      · exact absurd hu hne
      · rw [hu] at ih
        have hcb : isPySpace c = false := by
          cases hcc : isPySpace c
          · rfl
          · exact absurd hcc hc
        simp only [hcb, Bool.false_eq_true, if_false]
        exact wsCollapsed_cons2 c x xs (by simp [wsOk, hcb]) (by simp [hcb]) ih

theorem collapseWs_eq_self (s : Str) (h : wsCollapsed s = true) :
    collapseWs s = s := by
  induction s using collapseWs.induct with
  | case1 => rfl
  | case2 c =>
    have hok : wsOk c = true := by simpa [wsCollapsed] using h
    by_cases hc : isPySpace c
    · have : c = ' ' := by
        simp only [wsOk, hc, Bool.not_true, Bool.false_or, decide_eq_true_eq] at hok
        exact hok
      simp [collapseWs, hc, this]
    · simp [collapseWs, hc]
  | case3 c d cs hsp ih =>
    exact absurd (wsCollapsed_pair c d cs h) (by simpa using hsp)
  | case4 c d cs hsp ih =>
    have hok : wsOk c = true := wsOk_of_wsCollapsed_cons _ _ h
    have htl : wsCollapsed (d :: cs) = true := wsCollapsed_tail _ _ h
    have hrw : collapseWs (c :: d :: cs) =
        (if isPySpace c then ' ' else c) :: collapseWs (d :: cs) := by
      simp [collapseWs, hsp]
    rw [hrw, ih htl]
    by_cases hc : isPySpace c
    · have : c = ' ' := by
        simp only [wsOk, hc, Bool.not_true, Bool.false_or, decide_eq_true_eq] at hok
        exact hok
      simp [hc, this]
    · simp [hc]

theorem stripL_eq_self (s : Str) (h : headNotSp s = true) : stripL s = s := by
  cases s with
  | nil => rfl
  | cons c cs =>
    have hc : isPySpace c = false := by simpa [headNotSp] using h
    simp [stripL, List.dropWhile_cons, hc]

theorem stripR_eq_self (s : Str) (h : lastNotSp s = true) : stripR s = s := by
  induction s with
  | nil => rfl
  | cons c cs ih =>
    cases cs with
    | nil =>
      have hc : isPySpace c = false := by simpa [lastNotSp] using h
      simp [stripR, hc]
    | cons d ds =>
      rw [lastNotSp_cons c (d :: ds) (by simp)] at h
      have hrest : stripR (d :: ds) = d :: ds := ih h
      have hcut : stripR (c :: d :: ds) =
          if isPySpace c ∧ stripR (d :: ds) = [] then []
          else c :: stripR (d :: ds) := by
        conv_lhs => rw [stripR]
      rw [hcut, hrest]
      simp

theorem strip_eq_self (s : Str) (h1 : headNotSp s = true)
    (h2 : lastNotSp s = true) : strip s = s := by
  unfold strip
  rw [stripL_eq_self s h1, stripR_eq_self s h2]

/-- Everything needed for a string to be a fixed point of `normalize_space`. -/
theorem normalized_of (s : Str) (h1 : headNotSp s = true)
    (h2 : lastNotSp s = true) (h3 : wsCollapsed s = true) :
    normalize_space s = s := by
  unfold normalize_space
  rw [strip_eq_self s h1 h2, collapseWs_eq_self s h3]

theorem headNotSp_normalize (s : Str) :
    headNotSp (normalize_space s) = true :=
  headNotSp_collapseWs _ (headNotSp_strip s)

theorem lastNotSp_normalize (s : Str) :
    lastNotSp (normalize_space s) = true :=
  lastNotSp_collapseWs _ (lastNotSp_strip s)

theorem wsCollapsed_normalize (s : Str) :
    wsCollapsed (normalize_space s) = true :=
  wsCollapsed_collapseWs _

theorem normalize_space_idem (s : Str) :
    normalize_space (normalize_space s) = normalize_space s :=
  normalized_of _ (headNotSp_normalize s) (lastNotSp_normalize s)
    (wsCollapsed_normalize s)

theorem wsCollapsed_take (s : Str) (h : wsCollapsed s = true) (n : Nat) :
    wsCollapsed (s.take n) = true := by
  induction s using wsCollapsed.induct generalizing n with
  | case1 => simp [wsCollapsed]
  | case2 c =>
    cases n with
    | zero => rfl
    | succ m => simpa using h
  | case3 c d cs ih =>
    have hok : wsOk c = true := wsOk_of_wsCollapsed_cons _ _ h
    have hpair : (isPySpace c && isPySpace d) = false := wsCollapsed_pair _ _ _ h
    have htl : wsCollapsed (d :: cs) = true := wsCollapsed_tail _ _ h
    cases n with
    | zero => rfl
    | succ m =>
      cases m with
      | zero => simpa [wsCollapsed] using hok
      | succ k =>
        have := ih htl (k + 1)
        simp only [List.take_cons] at this ⊢
        exact wsCollapsed_cons2 c d (cs.take k) hok hpair this

theorem headNotSp_take (s : Str) (n : Nat) (h : headNotSp s = true) :
    headNotSp (s.take n) = true := by
  cases s with
  | nil => simp [headNotSp]
  | cons c cs =>
    cases n with
    | zero => simp [headNotSp]
    | succ m => simpa [headNotSp] using h

theorem lastNotSp_iff (l : Str) :
    lastNotSp l = true ↔ ∀ c, l.getLast? = some c → isPySpace c = false := by
  induction l with
  | nil => simp [lastNotSp]
  | cons c cs ih =>
    cases cs with
    | nil =>
      constructor
      · intro h x hx
        simp only [List.getLast?_singleton, Option.some.injEq] at hx
        subst hx
        simpa [lastNotSp] using h
      · intro h
        have := h c (by simp)
        simpa [lastNotSp] using this
    | cons d ds =>
      rw [lastNotSp_cons c (d :: ds) (by simp), ih]
      constructor
      · intro h x hx
        rw [List.getLast?_cons_cons] at hx
        exact h x hx
      · intro h x hx
        exact h x (by rw [List.getLast?_cons_cons]; exact hx)

theorem stripR_eq_take (s : Str) : ∃ n, stripR s = s.take n := by
  induction s with
  | nil => exact ⟨0, rfl⟩
  | cons c cs ih =>
    obtain ⟨n, hn⟩ := ih
    have hcut : stripR (c :: cs) =
        if isPySpace c ∧ stripR cs = [] then [] else c :: stripR cs := by
      conv_lhs => rw [stripR]
    by_cases hcond : isPySpace c ∧ stripR cs = []
    · exact ⟨0, by rw [hcut, if_pos hcond]; simp⟩
    · exact ⟨n + 1, by rw [hcut, if_neg hcond, hn]; rfl⟩

theorem wsCollapsed_stripL (s : Str) (h : wsCollapsed s = true) :
    wsCollapsed (stripL s) = true := by
  unfold stripL
  induction s with
  | nil => simpa using h
  | cons c cs ih =>
    by_cases hc : isPySpace c
    · simp only [List.dropWhile_cons, hc, if_true]
      exact ih (wsCollapsed_tail _ _ h)
    · simpa [List.dropWhile_cons, hc] using h

theorem wsCollapsed_strip (s : Str) (h : wsCollapsed s = true) :
    wsCollapsed (strip s) = true := by
  unfold strip
  obtain ⟨n, hn⟩ := stripR_eq_take (stripL s)
  rw [hn]
  exact wsCollapsed_take _ (wsCollapsed_stripL s h) n

/-- Stripping any prefix of a whitespace-collapsed string yields a fixed
point of `normalize_space`. -/
theorem normalized_strip_take (t : Str) (h : wsCollapsed t = true) (n : Nat) :
    normalize_space (strip (t.take n)) = strip (t.take n) :=
  normalized_of _ (headNotSp_strip _) (lastNotSp_strip _)
    (wsCollapsed_strip _ (wsCollapsed_take t h n))

theorem wsCollapsed_adj (s : Str) (i : Nat) (c d : Char)
    (h : wsCollapsed s = true) (hc : s[i]? = some c) (hd : s[i + 1]? = some d) :
    (isPySpace c && isPySpace d) = false := by
  induction s generalizing i with
  | nil => simp at hc
  | cons a as ih =>
    cases i with
    | zero =>
      simp only [List.getElem?_cons_zero, Option.some.injEq] at hc
      subst hc
      cases as with
      | nil => simp at hd
      | cons b bs =>
        simp only [List.getElem?_cons_succ, List.getElem?_cons_zero,
          Option.some.injEq] at hd
        subst hd
        exact wsCollapsed_pair _ _ _ h
    | succ j =>
      simp only [List.getElem?_cons_succ] at hc hd
      exact ih j (wsCollapsed_tail _ _ h) hc hd

/-! ### Properties of the rightmost-occurrence search -/

theorem occursAt_le (pat s : Str) (i : Nat) (hp : pat ≠ [])
    (h : occursAt pat s i = true) : i + pat.length ≤ s.length := by
  unfold occursAt at h
  rw [decide_eq_true_eq] at h
  have hlen := congrArg List.length h
  rw [List.length_take, List.length_drop] at hlen
  have hpos : 0 < pat.length := List.length_pos.2 hp
  omega

theorem occursAt_getElem? (pat s : Str) (i j : Nat) (hj : j < pat.length)
    (h : occursAt pat s i = true) : s[i + j]? = pat[j]? := by
  unfold occursAt at h
  rw [decide_eq_true_eq] at h
  have : ((s.drop i).take pat.length)[j]? = pat[j]? := by rw [h]
  rw [List.getElem?_take, if_pos hj, List.getElem?_drop] at this
  exact this

theorem rfindFrom_some (pat s : Str) (n j : Nat)
    (h : rfindFrom pat s n = some j) : occursAt pat s j = true ∧ j ≤ n := by
  induction n with
  | zero =>
    unfold rfindFrom at h
    split at h
    · rename_i hocc
      cases h
      exact ⟨hocc, Nat.le_refl 0⟩
    · cases h
  | succ m ih =>
    unfold rfindFrom at h
    split at h
    · rename_i hocc
      cases h
      exact ⟨hocc, Nat.le_refl _⟩
    · obtain ⟨h1, h2⟩ := ih h
      exact ⟨h1, Nat.le_trans h2 (Nat.le_succ m)⟩

theorem rfindFrom_complete (pat s : Str) (n k : Nat)
    (hk : occursAt pat s k = true) (hkn : k ≤ n) :
    ∃ j, rfindFrom pat s n = some j ∧ k ≤ j := by
  induction n with
  | zero =>
    have : k = 0 := Nat.le_zero.1 hkn
    subst this
    exact ⟨0, by unfold rfindFrom; rw [if_pos hk], Nat.le_refl 0⟩
  | succ m ih =>
    by_cases hocc : occursAt pat s (m + 1) = true
    · exact ⟨m + 1, by unfold rfindFrom; rw [if_pos hocc], hkn⟩
    · have hk' : k ≤ m := by
        rcases Nat.lt_or_ge k (m + 1) with h | h
        · omega
        · have : k = m + 1 := by omega
          subst this
          exact absurd hk hocc
      obtain ⟨j, hj1, hj2⟩ := ih hk'
      refine ⟨j, ?_, hj2⟩
      unfold rfindFrom
      rw [if_neg hocc]
      exact hj1

theorem rfindSub_some (pat s : Str) (j : Nat) (h : rfindSub pat s = some j) :
    occursAt pat s j = true :=
  (rfindFrom_some pat s s.length j h).1

theorem rfindSub_complete (pat s : Str) (k : Nat)
    (hk : occursAt pat s k = true) (hks : k ≤ s.length) :
    ∃ j, rfindSub pat s = some j ∧ k ≤ j :=
  rfindFrom_complete pat s s.length k hk hks

theorem findPunctCut_mem (w : Str) (ps : List Str) (idx : Nat)
    (h : findPunctCut w ps = some idx) :
    ∃ p, p ∈ ps ∧ rfindSub p w = some idx := by
  induction ps with
  | nil => cases h
  | cons p rest ih =>
    unfold findPunctCut at h
    rcases hr : rfindSub p w with _ | j
    · rw [hr] at h
      obtain ⟨q, hq1, hq2⟩ := ih h
      exact ⟨q, List.mem_cons_of_mem _ hq1, hq2⟩
    · rw [hr] at h
      cases h
      exact ⟨p, List.mem_cons_self _ _, hr⟩

theorem puncts_shape (p : Str) (hp : p ∈ puncts) :
    ∃ c, p = [c, ' '] ∧ isPySpace c = false := by
  fin_cases hp
  · exact ⟨'.', rfl, by decide⟩
  · exact ⟨'!', rfl, by decide⟩
  · exact ⟨'?', rfl, by decide⟩
  · exact ⟨';', rfl, by decide⟩

theorem getElem?_take_lt (l : Str) (n i : Nat) (h : i < n) :
    (l.take n)[i]? = l[i]? := by
  rw [List.getElem?_take, if_pos h]

theorem getLast?_take_eq (l : Str) (n : Nat) (h1 : 1 ≤ n) (h2 : n ≤ l.length) :
    (l.take n).getLast? = l[n - 1]? := by
  rw [List.getLast?_eq_getElem?]
  have hlen : (l.take n).length = n := by rw [List.length_take]; omega
  rw [hlen, getElem?_take_lt l n (n - 1) (by omega)]

theorem occursAt_single_intro (s : Str) (i : Nat) (c : Char)
    (h : s[i]? = some c) : occursAt [c] s i = true := by
  unfold occursAt
  rw [decide_eq_true_eq]
  have h0 : (s.drop i)[0]? = some c := by
    rw [List.getElem?_drop]
    simpa using h
  cases hd : s.drop i with
  | nil => rw [hd] at h0; cases h0
  | cons x xs =>
    rw [hd] at h0
    simp only [List.getElem?_cons_zero, Option.some.injEq] at h0
    subst h0
    simp

theorem length_strip_take_le (t : Str) (k : Nat) :
    (strip (t.take k)).length ≤ k :=
  Nat.le_trans (length_strip_le _)
    (by rw [List.length_take]; exact Nat.min_le_left _ _)

/-- The trimming helper never returns more than `maxLen` characters. -/
theorem trim_length_le (s : Str) (m : Nat) :
    (trim_to_word_boundary s m).length ≤ m := by
  unfold trim_to_word_boundary
  dsimp only
  split
  · assumption
  · rename_i hgt
    split
    · rename_i idx hfp
      obtain ⟨p, hpm, hpr⟩ := findPunctCut_mem _ _ _ hfp
      obtain ⟨c, hpc, _⟩ := puncts_shape p hpm
      have hocc := rfindSub_some _ _ _ hpr
      have hb := occursAt_le p _ idx (by rw [hpc]; simp) hocc
      rw [hpc] at hb
      simp only [List.length_cons, List.length_nil] at hb
      have hwl : (((normalize_space s).drop (m - 60)).take (m - (m - 60))).length
          ≤ m - (m - 60) := by
        rw [List.length_take]; exact Nat.min_le_left _ _
      have := length_strip_take_le (normalize_space s) (m - 60 + idx + 1)
      omega
    · rename_i hfp
      split
      · exact length_strip_take_le _ m
      · exact length_strip_take_le _ m
      · rename_i cut hne hr
        have hocc := rfindSub_some _ _ _ hr
        have hb := occursAt_le _ _ cut (by simp) hocc
        have hwl : ((normalize_space s).take (m + 1)).length ≤ m + 1 := by
          rw [List.length_take]; exact Nat.min_le_left _ _
        have := length_strip_take_le (normalize_space s) cut
        simp only [List.length_cons, List.length_nil] at hb
        omega

/-- Trimming an already-normalized string within the limit is the identity. -/
theorem trim_noop (t : Str) (m : Nat) (h : normalize_space t = t)
    (hle : t.length ≤ m) : trim_to_word_boundary t m = t := by
  unfold trim_to_word_boundary
  rw [h, if_pos hle]

/-- The trimming helper always returns a fixed point of `normalize_space`. -/
theorem trim_normalized (s : Str) (m : Nat) :
    normalize_space (trim_to_word_boundary s m) = trim_to_word_boundary s m := by
  have hws : wsCollapsed (normalize_space s) = true := wsCollapsed_normalize s
  unfold trim_to_word_boundary
  dsimp only
  split
  · exact normalize_space_idem s
  · split
    · exact normalized_strip_take _ hws _
    · split
      · exact normalized_strip_take _ hws _
      · exact normalized_strip_take _ hws _
      · exact normalized_strip_take _ hws _

/-- Core of the word-boundary property: when the normalized text overflows
`m` and some space sits at an index in `[1, m]`, the trimmed result is the
prefix of the normalized text ending immediately before a space. -/
theorem trim_boundary_core (s : Str) (m : Nat)
    (hlong : m < (normalize_space s).length)
    (hsp : ∃ i, 1 ≤ i ∧ i ≤ m ∧ (normalize_space s)[i]? = some ' ') :
    ∃ cut, 1 ≤ cut ∧ cut ≤ m ∧
      trim_to_word_boundary s m = (normalize_space s).take cut ∧
      (normalize_space s)[cut]? = some ' ' := by
  obtain ⟨i, hi1, hi2, hisp⟩ := hsp
  have hws : wsCollapsed (normalize_space s) = true := wsCollapsed_normalize s
  have hhead : headNotSp (normalize_space s) = true := headNotSp_normalize s
  unfold trim_to_word_boundary
  dsimp only
  rw [if_neg (by omega)]
  rcases hfp : findPunctCut
      (((normalize_space s).drop (m - 60)).take (m - (m - 60))) puncts
      with _ | idx
  · -- no sentence punctuation found; the rfind-on-space branch
    rcases hr : rfindSub [' '] ((normalize_space s).take (m + 1)) with _ | cut
    · -- rfind found nothing: contradicts the space at index i
      exfalso
      have hti : ((normalize_space s).take (m + 1))[i]? = some ' ' := by
        rw [getElem?_take_lt _ _ _ (by omega)]
        exact hisp
      have hocc := occursAt_single_intro _ i ' ' hti
      have hlen : ((normalize_space s).take (m + 1)).length = m + 1 := by
        rw [List.length_take]; omega
      obtain ⟨j, hj, _⟩ := rfindSub_complete _ _ i hocc (by omega)
      rw [hr] at hj
      cases hj
    · cases cut with
      | zero =>
        -- rfind returned 0: impossible, the rightmost space is at least i ≥ 1
        exfalso
        have hti : ((normalize_space s).take (m + 1))[i]? = some ' ' := by
          rw [getElem?_take_lt _ _ _ (by omega)]
          exact hisp
        have hocc := occursAt_single_intro _ i ' ' hti
        have hlen : ((normalize_space s).take (m + 1)).length = m + 1 := by
          rw [List.length_take]; omega
        obtain ⟨j, hj, hij⟩ := rfindSub_complete _ _ i hocc (by omega)
        rw [hr] at hj
        cases hj
        omega
      | succ k =>
        have hocc := rfindSub_some _ _ _ hr
        have hb := occursAt_le _ _ (k + 1) (by simp) hocc
        have hwl : ((normalize_space s).take (m + 1)).length ≤ m + 1 := by
          rw [List.length_take]; exact Nat.min_le_left _ _
        simp only [List.length_cons, List.length_nil] at hb
        have hcm : k + 1 ≤ m := by omega
        have htc : (normalize_space s)[k + 1]? = some ' ' := by
          have h0 := occursAt_getElem? _ _ (k + 1) 0 (by simp) hocc
          simp only [Nat.add_zero, List.getElem?_cons_zero] at h0
          rw [getElem?_take_lt _ _ _ (by omega)] at h0
          exact h0
        have hcle : k + 1 ≤ (normalize_space s).length := by omega
        have hh : headNotSp ((normalize_space s).take (k + 1)) = true :=
          headNotSp_take _ _ hhead
        have hl : lastNotSp ((normalize_space s).take (k + 1)) = true := by
          rw [lastNotSp_iff]
          intro x hx
          rw [getLast?_take_eq _ _ (by omega) hcle] at hx
          simp only [Nat.add_sub_cancel] at hx
          have hadj := wsCollapsed_adj (normalize_space s) k x ' ' hws hx htc
          rcases hxs : isPySpace x with _ | _
          · rfl
          · rw [hxs] at hadj
            simp [isPySpace] at hadj
        refine ⟨k + 1, by omega, hcm, ?_, htc⟩
        exact strip_eq_self _ hh hl
  · -- a sentence punctuation ". "/"! "/"? "/"; " was found in the window
    obtain ⟨p, hpm, hpr⟩ := findPunctCut_mem _ _ _ hfp
    obtain ⟨c, hpc, hcns⟩ := puncts_shape p hpm
    have hocc := rfindSub_some _ _ _ hpr
    rw [hpc] at hocc
    have hb := occursAt_le _ _ idx (by simp) hocc
    simp only [List.length_cons, List.length_nil] at hb
    have hwl : (((normalize_space s).drop (m - 60)).take (m - (m - 60))).length
        ≤ m - (m - 60) := by
      rw [List.length_take]; exact Nat.min_le_left _ _
    have hc0 : (((normalize_space s).drop (m - 60)).take (m - (m - 60)))[idx]?
        = some c := by
      have h0 := occursAt_getElem? _ _ idx 0 (by simp) hocc
      simpa using h0
    have hc1 : (((normalize_space s).drop (m - 60)).take (m - (m - 60)))[idx + 1]?
        = some ' ' := by
      have h1 := occursAt_getElem? _ _ idx 1 (by simp) hocc
      simpa using h1
    rw [getElem?_take_lt _ _ _ (by omega), List.getElem?_drop] at hc0
    rw [getElem?_take_lt _ _ _ (by omega), List.getElem?_drop] at hc1
    have hc1' : (normalize_space s)[m - 60 + idx + 1]? = some ' ' := by
      rw [Nat.add_assoc]
      exact hc1
    have hcm : m - 60 + idx + 1 ≤ m := by omega
    have hcle : m - 60 + idx + 1 ≤ (normalize_space s).length := by omega
    have hh : headNotSp ((normalize_space s).take (m - 60 + idx + 1)) = true :=
      headNotSp_take _ _ hhead
    have hl : lastNotSp ((normalize_space s).take (m - 60 + idx + 1)) = true := by
      rw [lastNotSp_iff]
      intro x hx
      rw [getLast?_take_eq _ _ (by omega) hcle] at hx
      simp only [Nat.add_sub_cancel] at hx
      rw [hc0] at hx
      cases hx
      exact hcns
    refine ⟨m - 60 + idx + 1, by omega, hcm, ?_, hc1'⟩
    exact strip_eq_self _ hh hl

/-! ### Structural facts about the title and description normalizers -/

theorem smart_le (s : Str) (lo hi : Nat) :
    (smart_title s lo hi).length ≤ hi := by
  unfold smart_title
  dsimp only
  split
  · split
    · rename_i hcond
      exact hcond.2
    · exact trim_length_le _ _
  · exact trim_length_le _ _

theorem smart_normalized (s : Str) (lo hi : Nat) :
    normalize_space (smart_title s lo hi) = smart_title s lo hi := by
  unfold smart_title
  dsimp only
  split
  · split
    · decide
    · exact trim_normalized _ _
  · exact trim_normalized _ _

theorem smart_noop (t : Str) (lo hi : Nat) (h : normalize_space t = t)
    (h1 : lo ≤ t.length) (h2 : t.length ≤ hi) : smart_title t lo hi = t := by
  have hcore : smartCore t lo hi = t := by
    unfold smartCore
    dsimp only
    rw [h]
    rw [if_neg (show ¬ t.length < lo from by omega)]
    rw [if_neg (show ¬ hi < t.length from by omega)]
  unfold smart_title
  dsimp only
  rw [hcore, trim_noop t hi h h2]
  rw [if_neg (show ¬ t.length < lo from by omega)]

theorem extendLoop_normalized (lo hi : Nat) (l : List Str) (text : Str)
    (h : normalize_space text = text) :
    normalize_space (extendLoop lo hi text l).1 = (extendLoop lo hi text l).1 := by
  induction l generalizing text with
  | nil => simpa [extendLoop] using h
  | cons sfx rest ih =>
    unfold extendLoop
    dsimp only
    set candidate :=
      normalize_space (if text = [] then sfx else strip (text ++ [' '] ++ sfx))
      with hcand
    have hcn : normalize_space candidate = candidate := by
      rw [hcand]
      exact normalize_space_idem _
    split
    · exact ih text h
    · split
      · exact hcn
      · exact ih _ hcn

theorem extend_normalized (s : Str) (lo hi : Nat) :
    normalize_space (extend_description s lo hi) = extend_description s lo hi := by
  unfold extend_description
  dsimp only
  split
  · exact trim_normalized _ _
  · split
    · exact extendLoop_normalized lo hi descSuffixes _ (normalize_space_idem s)
    · split
      · exact normalize_space_idem _
      · exact extendLoop_normalized lo hi descSuffixes _ (normalize_space_idem s)

theorem fix_desc_le (d : Str) (lo hi : Nat) :
    (fix_desc d lo hi).length ≤ hi := by
  unfold fix_desc
  dsimp only
  exact trim_length_le _ _

theorem fix_desc_normalized (d : Str) (lo hi : Nat) :
    normalize_space (fix_desc d lo hi) = fix_desc d lo hi := by
  unfold fix_desc
  dsimp only
  exact trim_normalized _ _

theorem fix_desc_noop (d : Str) (lo hi : Nat) (h : normalize_space d = d)
    (h1 : lo ≤ d.length) (h2 : d.length ≤ hi) : fix_desc d lo hi = d := by
  unfold fix_desc
  dsimp only
  rw [if_neg (show ¬ hi < d.length from by omega)]
  rw [if_neg (show ¬ d.length < lo from by omega)]
  exact trim_noop d hi h h2

/-! ### The claims -/

/-- C1: for every input string and every `min_len ≤ max_len`, both the title
normalizer `_smart_title` and the description pipeline of `fix_file` return
a string of length at most `max_len`. -/
theorem claim_c1_output_within_max (s : Str) (lo hi : Nat) (h : lo ≤ hi) :
    (smart_title s lo hi).length ≤ hi ∧ (fix_desc s lo hi).length ≤ hi :=
  ⟨smart_le s lo hi, fix_desc_le s lo hi⟩

/-- Witness for C1 at the concrete input `"Hello world"`, `min_len = 3`,
`max_len = 10`. -/
theorem claim_c1_witness :
    (3 : Nat) ≤ 10 ∧
      ((smart_title "Hello world".toList 3 10).length ≤ 10 ∧
        (fix_desc "Hello world".toList 3 10).length ≤ 10) :=
  ⟨by decide, claim_c1_output_within_max "Hello world".toList 3 10 (by decide)⟩

/-- C2: when the whitespace-normalized input already has length in
`[min_len, max_len]`, `_smart_title` returns `_normalize_space(s)` and the
description pipeline of `fix_file` leaves the (already normalized)
description unchanged. -/
theorem claim_c2_inrange_noop (s : Str) (lo hi : Nat)
    (h1 : lo ≤ (normalize_space s).length)
    (h2 : (normalize_space s).length ≤ hi) :
    smart_title s lo hi = normalize_space s ∧
      fix_desc (normalize_space s) lo hi = normalize_space s := by
  constructor
  · have hcore : smartCore s lo hi = normalize_space s := by
      unfold smartCore
      dsimp only
      rw [if_neg (show ¬ (normalize_space s).length < lo from by omega)]
      rw [if_neg (show ¬ hi < (normalize_space s).length from by omega)]
    unfold smart_title
    dsimp only
    rw [hcore, trim_noop _ hi (normalize_space_idem s) h2]
    rw [if_neg (show ¬ (normalize_space s).length < lo from by omega)]
  · exact fix_desc_noop _ lo hi (normalize_space_idem s) h1 h2

/-- Witness for C2 at the concrete input `"Hello world"`, `min_len = 5`,
`max_len = 20`. -/
theorem claim_c2_witness :
    (5 ≤ (normalize_space "Hello world".toList).length ∧
      (normalize_space "Hello world".toList).length ≤ 20) ∧
      (smart_title "Hello world".toList 5 20 =
          normalize_space "Hello world".toList ∧
        fix_desc (normalize_space "Hello world".toList) 5 20 =
          normalize_space "Hello world".toList) :=
  ⟨⟨by decide, by decide⟩,
    claim_c2_inrange_noop "Hello world".toList 5 20 (by decide) (by decide)⟩

/-- C3 counterexample: the normalizer is not idempotent.  With
`min_len = 50`, `max_len = 55` the empty title maps to
`"Midwest Flip LLC | Detroit"` (26 chars, still below `min_len`, and the
42-char fallback does not satisfy `50 ≤ 42`), and a second application
extends it again to `"Midwest Flip LLC | Detroit | Michigan"`. -/
theorem claim_c3_counterexample :
    smart_title (smart_title [] 50 55) 50 55 ≠ smart_title [] 50 55 := by
  decide

/-- C3 amended: applying the normalizer twice gives the same result as
applying it once whenever the first application reaches `min_len` (its
result is always ≤ `max_len` and whitespace-normalized); the same holds for
the description pipeline.  When the first result stays below `min_len` the
second application may extend it further, as the counterexample shows. -/
theorem claim_c3_idempotent_when_min_reached (s : Str) (lo hi : Nat) :
    (lo ≤ (smart_title s lo hi).length →
      smart_title (smart_title s lo hi) lo hi = smart_title s lo hi) ∧
    (lo ≤ (fix_desc s lo hi).length →
      fix_desc (fix_desc s lo hi) lo hi = fix_desc s lo hi) := by
  constructor
  · intro hmin
    exact smart_noop _ lo hi (smart_normalized s lo hi) hmin (smart_le s lo hi)
  · intro hmin
    exact fix_desc_noop _ lo hi (fix_desc_normalized s lo hi) hmin
      (fix_desc_le s lo hi)

/-- Witness for the amended C3 at `"Hello world this is fine"`,
`min_len = 5`, `max_len = 40`. -/
theorem claim_c3_witness :
    (5 ≤ (smart_title "Hello world this is fine".toList 5 40).length ∧
      smart_title (smart_title "Hello world this is fine".toList 5 40) 5 40 =
        smart_title "Hello world this is fine".toList 5 40) ∧
    (5 ≤ (fix_desc "Hello world this is fine".toList 5 40).length ∧
      fix_desc (fix_desc "Hello world this is fine".toList 5 40) 5 40 =
        fix_desc "Hello world this is fine".toList 5 40) :=
  ⟨⟨by decide,
      (claim_c3_idempotent_when_min_reached "Hello world this is fine".toList
        5 40).1 (by decide)⟩,
    ⟨by decide,
      (claim_c3_idempotent_when_min_reached "Hello world this is fine".toList
        5 40).2 (by decide)⟩⟩

/-- C4: when the normalized text overflows `max_len` and contains a space at
some index in `[1, max_len]`, `_trim_to_word_boundary` cuts exactly before a
space of the normalized text (a word boundary — possibly right after
sentence punctuation), never mid-word; and in particular the spec's example
`_smart_title("Kitchen Remodeling Services for Metro Detroit Homes Today",
10, 20)` returns the whole-word string `"Midwest Flip LLC"` of length
16 ≤ 20. -/
theorem claim_c4_word_boundary :
    (∀ (s : Str) (m : Nat), m < (normalize_space s).length →
      (∃ i, 1 ≤ i ∧ i ≤ m ∧ (normalize_space s)[i]? = some ' ') →
      ∃ cut, 1 ≤ cut ∧ cut ≤ m ∧
        trim_to_word_boundary s m = (normalize_space s).take cut ∧
        (normalize_space s)[cut]? = some ' ') ∧
    smart_title
        "Kitchen Remodeling Services for Metro Detroit Homes Today".toList
        10 20 = brandStr ∧
    (smart_title
        "Kitchen Remodeling Services for Metro Detroit Homes Today".toList
        10 20).length ≤ 20 := by
  refine ⟨fun s m h1 h2 => trim_boundary_core s m h1 h2, ?_, ?_⟩
  · decide
  · decide

/-- Witness for C4 at the concrete input
`"Hello world this is a long sentence"` with `max_len = 15`. -/
theorem claim_c4_witness :
    ∃ cut, 1 ≤ cut ∧ cut ≤ 15 ∧
      trim_to_word_boundary "Hello world this is a long sentence".toList 15 =
        (normalize_space "Hello world this is a long sentence".toList).take
          cut ∧
      (normalize_space "Hello world this is a long sentence".toList)[cut]? =
        some ' ' :=
  claim_c4_word_boundary.1 "Hello world this is a long sentence".toList 15
    (by decide) ⟨5, by decide, by decide, by decide⟩

/-- C5 counterexample: the claim that the empty input receives at most the
first suffix is false.  With `min_len = 60`, `max_len = 100` the empty
description is extended with the first suffix, then the second suffix, then
the padding string. -/
theorem claim_c5_counterexample :
    containsSub sfx2 (extend_description [] 60 100) = true ∧
      containsSub sfx1 (extend_description [] 60 100) = true := by
  constructor
  · decide
  · decide

/-- C5 amended: for the empty input (and any `min_len ≥ 1`) the result
contains the first suffix exactly when that suffix fits within `max_len`;
when it fits, later suffixes and the padding string may be appended as
well, so the extension is not limited to the first suffix. -/
theorem claim_c5_empty_first_suffix_iff_fits (lo hi : Nat) (h : 1 ≤ lo) :
    (containsSub sfx1 (extend_description [] lo hi) = true ↔
      sfx1.length ≤ hi) := by
  have hns1 : normalize_space sfx1 = sfx1 := by decide
  have hns2 : normalize_space sfx2 = sfx2 := by decide
  have hne1 : (sfx1 = ([] : Str)) = False := eq_false (by decide)
  have h12 : normalize_space (strip (sfx1 ++ [' '] ++ sfx2))
      = sfx1 ++ [' '] ++ sfx2 := by decide
  have hpad0 : normalize_space (strip ([' '] ++ extraPad)) = extraPad := by
    decide
  have hpad1 : normalize_space (strip (sfx1 ++ [' '] ++ extraPad))
      = sfx1 ++ [' '] ++ extraPad := by decide
  have hpad2 : normalize_space (strip (sfx2 ++ [' '] ++ extraPad))
      = sfx2 ++ [' '] ++ extraPad := by decide
  have hpad12 : normalize_space (strip ((sfx1 ++ [' '] ++ sfx2) ++ [' '] ++ extraPad))
      = (sfx1 ++ [' '] ++ sfx2) ++ [' '] ++ extraPad := by decide
  unfold extend_description
  dsimp only
  rw [show normalize_space ([] : Str) = [] from rfl]
  rw [if_neg (show ¬ lo ≤ List.length ([] : Str) from by
    simp only [List.length_nil]; omega)]
  simp only [descSuffixes, extendLoop, eq_self_iff_true, if_true, hns1, hns2,
    hne1, if_false, h12]
  by_cases h32 : sfx1.length > hi
  · rw [if_pos h32]
    by_cases h20 : sfx2.length > hi
    · rw [if_pos h20]
      simp only [Bool.false_eq_true, if_false, List.nil_append, hpad0]
      by_cases hp : extraPad.length ≤ hi
      · rw [if_pos hp]
        exact iff_of_false (by decide) (by omega)
      · rw [if_neg hp]
        exact iff_of_false (by decide) (by omega)
    · rw [if_neg h20]
      by_cases hl20 : lo ≤ sfx2.length
      · rw [if_pos hl20]
        simp only [eq_self_iff_true, if_true]
        exact iff_of_false (by decide) (by omega)
      · rw [if_neg hl20]
        simp only [Bool.false_eq_true, if_false, hpad2]
        by_cases hp : (sfx2 ++ [' '] ++ extraPad).length ≤ hi
        · rw [if_pos hp]
          exact iff_of_false (by decide) (by omega)
        · rw [if_neg hp]
          exact iff_of_false (by decide) (by omega)
  · rw [if_neg h32]
    by_cases hl32 : lo ≤ sfx1.length
    · rw [if_pos hl32]
      simp only [eq_self_iff_true, if_true]
      exact iff_of_true (by decide) (by omega)
    · rw [if_neg hl32]
      by_cases h53 : (sfx1 ++ [' '] ++ sfx2).length > hi
      · rw [if_pos h53]
        simp only [Bool.false_eq_true, if_false, hpad1]
        by_cases hp : (sfx1 ++ [' '] ++ extraPad).length ≤ hi
        · rw [if_pos hp]
          exact iff_of_true (by decide) (by omega)
        · rw [if_neg hp]
          exact iff_of_true (by decide) (by omega)
      · rw [if_neg h53]
        by_cases hl53 : lo ≤ (sfx1 ++ [' '] ++ sfx2).length
        · rw [if_pos hl53]
          simp only [eq_self_iff_true, if_true]
          exact iff_of_true (by decide) (by omega)
        · rw [if_neg hl53]
          simp only [Bool.false_eq_true, if_false, hpad12]
          by_cases hp : ((sfx1 ++ [' '] ++ sfx2) ++ [' '] ++ extraPad).length ≤ hi
          · rw [if_pos hp]
            exact iff_of_true (by decide) (by omega)
          · rw [if_neg hp]
            exact iff_of_true (by decide) (by omega)

/-- Witness for the amended C5 at `min_len = 10`, `max_len = 25`, where the
first suffix (32 chars) does not fit and is therefore absent. -/
theorem claim_c5_witness :
    (1 : Nat) ≤ 10 ∧
      (containsSub sfx1 (extend_description [] 10 25) = true ↔
        sfx1.length ≤ 25) :=
  ⟨by decide, claim_c5_empty_first_suffix_iff_fits 10 25 (by decide)⟩

/-- C6: the normalizer is total — for every input string (the empty string
included) and all length parameters, `_smart_title` and
`_extend_description` produce a result string; the shallow embedding
contains no error case, matching the source, which uses only non-throwing
string operations. -/
theorem claim_c6_total (s : Str) (lo hi : Nat) :
    ∃ t d : Str, smart_title s lo hi = t ∧ extend_description s lo hi = d :=
  ⟨smart_title s lo hi, extend_description s lo hi, rfl, rfl⟩

/-- C7: the empty title with `min_len = 30`, `max_len = 60` yields a
non-empty best-effort result of length at most 60 (the brand fallback). -/
theorem claim_c7_empty_brand_fallback :
    smart_title [] 30 60 ≠ [] ∧ (smart_title [] 30 60).length ≤ 60 := by
  constructor
  · decide
  · decide

/-- C8: `_smart_title("Roofing", 30, 60)` has length in `[30, 60]` and
contains the brand qualifier `"Midwest Flip LLC"`. -/
theorem claim_c8_roofing_extension :
    30 ≤ (smart_title "Roofing".toList 30 60).length ∧
      (smart_title "Roofing".toList 30 60).length ≤ 60 ∧
      containsSub brandStr (smart_title "Roofing".toList 30 60) = true := by
  refine ⟨by decide, by decide, by decide⟩

/-- C9: `_extend_description("We fix roofs.", 70, 160)` has at least one of
the fixed suffixes appended (in fact the first) and length in `[70, 160]`. -/
theorem claim_c9_desc_extension :
    containsSub sfx1 (extend_description "We fix roofs.".toList 70 160) = true ∧
      70 ≤ (extend_description "We fix roofs.".toList 70 160).length ∧
      (extend_description "We fix roofs.".toList 70 160).length ≤ 160 := by
  refine ⟨by decide, by decide, by decide⟩

/-- C10: every string returned by `_smart_title`, `_extend_description` and
`_trim_to_word_boundary` is whitespace-normalized, i.e. a fixed point of
`_normalize_space` (no leading/trailing whitespace, no whitespace runs). -/
theorem claim_c10_outputs_normalized (s : Str) (lo hi m : Nat) :
    normalize_space (smart_title s lo hi) = smart_title s lo hi ∧
      normalize_space (extend_description s lo hi) =
        extend_description s lo hi ∧
      normalize_space (trim_to_word_boundary s m) =
        trim_to_word_boundary s m :=
  ⟨smart_normalized s lo hi, extend_normalized s lo hi, trim_normalized s m⟩
